import Mathlib

/-!
Verification development for a peer-to-peer file sharing system.

The definitions below are shallow embeddings of the Python sources:
`peer_manager.py`, `connection_pool.py`, `announcer.py`,
`test1/listener.py`, `test1/peer_server.py` and `test2/download_manager.py`.
Python dictionaries are modelled as insertion-ordered association lists
(Python 3.7+ dicts preserve insertion order, and both
`PeerManager.get_content_dict` and `min` over `ConnectionPool.pool` iterate
in that order, so the order is semantically relevant).  Byte strings are
modelled as `List Nat` (one `Nat` per byte), wall-clock instants as `Nat`,
and the SHA-256 digest as an abstract function parameter
`H : List Nat → String`, since every claim treats the hash itself as a
black box.
-/

namespace P2P

/-- Lookup in an insertion-ordered association list, mirroring a Python
dictionary read `d[k]` / `d.get(k)`: the first binding of the key wins
(in well-formed states keys are unique, so it is the only binding). -/
def alookup {β : Type} : List (String × β) → String → Option β
  | [], _ => none
  | (k, v) :: rest, key => if key = k then some v else alookup rest key

/-- Write `d[k] = v` on an insertion-ordered association list: an existing
key keeps its position (Python dicts update in place), a fresh key is
appended at the end. -/
def aset {β : Type} : List (String × β) → String → β → List (String × β)
  | [], key, v => [(key, v)]
  | (k, w) :: rest, key, v =>
    if key = k then (k, v) :: rest else (k, w) :: aset rest key v

/-- Delete `del d[k]`: removes the first binding of the key. -/
def aerase {β : Type} : List (String × β) → String → List (String × β)
  | [], _ => []
  | (k, w) :: rest, key => if key = k then rest else (k, w) :: aerase rest key

/-- One peer's stored record: `self.peers[ip] = {"last_seen": ..., "chunks": ...}`.
The chunk map sends a chunk name to the checksum the peer last reported. -/
structure PeerEntry where
  lastSeen : Nat
  chunks : List (String × String)
deriving DecidableEq, Repr

/-- The peer table `self.peers`. -/
abbrev Peers := List (String × PeerEntry)

/-- Shallow embedding of `PeerManager.update_peer`.  Returns the new table
and whether this call turned on `self.content_modified` (the flag is
set exactly when the stored chunk map differs from the announced one).
An empty announcement for an already-known peer is skipped entirely. -/
def updatePeer (ps : Peers) (ip : String) (chunks : List (String × String))
    (now : Nat) : Peers × Bool :=
  if chunks = [] ∧ (alookup ps ip).isSome then (ps, false)
  else
    let current := match alookup ps ip with
      | some e => e.chunks
      | none => []
    (aset ps ip ⟨now, chunks⟩, decide (current ≠ chunks))

/-- One entry of the derived content directory:
`{"checksum": ..., "peers": [...]}`. -/
structure CDEntry where
  checksum : String
  peers : List String
deriving DecidableEq, Repr

/-- Inner-loop body of `PeerManager.get_content_dict` for a single
`(chunk_name, {"checksum": ...})` pair reported by peer `ip`. -/
def stepChunk (ip : String) (cd : List (String × CDEntry))
    (c : String × String) : List (String × CDEntry) :=
  match alookup cd c.1 with
  | none => cd ++ [(c.1, ⟨c.2, [ip]⟩)]
  | some e =>
    if e.checksum ≠ c.2 then cd
    else if ip ∈ e.peers then cd
    else aset cd c.1 ⟨e.checksum, e.peers ++ [ip]⟩

/-- Outer-loop body of `PeerManager.get_content_dict`: fold one peer's
whole chunk map into the accumulating content directory. -/
def stepPeer (cd : List (String × CDEntry)) (p : String × PeerEntry) :
    List (String × CDEntry) :=
  p.2.chunks.foldl (stepChunk p.1) cd

/-- Shallow embedding of `PeerManager.get_content_dict`: iterate the peer
table in insertion order and project it to chunk → (checksum, peer list). -/
def getContentDict (ps : Peers) : List (String × CDEntry) :=
  ps.foldl stepPeer []

/-- The mutable state of a `PeerManager`: the peer table plus the
`content_modified` flag. -/
structure PMState where
  peers : Peers
  modified : Bool
deriving DecidableEq, Repr

/-- One iteration of `P2PListener.start` for a decoded announcement
`{"peer_ip": ip, "chunks": chunks}` arriving at time `now`.  Returns the
new state and whether the content dictionary file was written.  An
announcement with a falsy (empty) chunk map is skipped via `continue`;
otherwise the listener calls `update_peer`, then unconditionally
recomputes and saves the content dictionary. -/
def processAnnouncement (s : PMState) (ip : String)
    (chunks : List (String × String)) (now : Nat) : PMState × Bool :=
  if chunks = [] then (s, false)
  else
    let r := updatePeer s.peers ip chunks now
    (⟨r.1, s.modified || r.2⟩, true)

/-- The pool `{peer_ip: (P2PConnection, last_used_time)}`, keeping only the
`last_used` timestamp (the socket object carries no pool-level logic). -/
abbrev Pool := List (String × Nat)

/-- First entry with minimal `last_used`, as computed by Python's
`min(self.pool.items(), key=lambda x: x[1][1])`: iteration keeps the
current minimum and replaces it only on a strictly smaller key, so the
first minimal entry in insertion order wins. -/
def poolMin : Pool → Option (String × Nat)
  | [] => none
  | x :: xs => some (xs.foldl (fun best y => if y.2 < best.2 then y else best) x)

/-- Shallow embedding of `ConnectionPool._remove_oldest_connection`:
returns the shrunk pool and the entry that was evicted (whose socket is
closed), if any. -/
def removeOldest (p : Pool) : Pool × Option (String × Nat) :=
  match poolMin p with
  | none => (p, none)
  | some e => (aerase p e.1, some e)

/-- Tail of `ConnectionPool.get_connection` reached when `peer_ip` has no
live pooled connection: evict the least-recently-used entry if the pool
is at capacity, then insert the fresh connection. -/
def getConnTail (p : Pool) (peer : String) (now maxC : Nat) :
    Pool × Option (String × Nat) :=
  if maxC ≤ p.length then
    let r := removeOldest p
    (r.1 ++ [(peer, now)], r.2)
  else (p ++ [(peer, now)], none)

/-- Shallow embedding of `ConnectionPool.get_connection`.  `live` models
the `conn.sock.getpeername()` probe on a cached connection.  Returns the
new pool and the entry evicted by `_remove_oldest_connection`, if any. -/
def getConnection (p : Pool) (peer : String) (now : Nat) (live : Bool)
    (maxC : Nat) : Pool × Option (String × Nat) :=
  if (alookup p peer).isSome then
    if live then (aset p peer now, none)
    else getConnTail (aerase p peer) peer now maxC
  else getConnTail p peer now maxC

/-- Fold a whole sequence of acquisition requests `(peer, now, live)`
through the pool, as issued by download workers. -/
def runAcquisitions (p : Pool) (reqs : List (String × Nat × Bool))
    (maxC : Nat) : Pool :=
  reqs.foldl (fun q r => (getConnection q r.1 r.2.1 r.2.2 maxC).1) p

/-- Decimal digit bytes of a natural number, as produced by Python's
`str(n)` for `n ≥ 0` (most significant digit first). -/
def natDecimalAux : Nat → Nat → List Nat
  | 0, _ => []
  | f + 1, n =>
    if n < 10 then [48 + n] else natDecimalAux f (n / 10) ++ [48 + n % 10]

/-- ASCII bytes of `str(n)` for a natural `n`. -/
def natDecimal (n : Nat) : List Nat :=
  natDecimalAux (n + 1) n

/-- Value of a nonempty string of ASCII digit bytes; `none` when empty or
when any byte is not a digit. -/
def digitsVal (l : List Nat) : Option Nat :=
  if l = [] then none
  else l.foldl
    (fun acc d => acc.bind fun a =>
      if 48 ≤ d ∧ d ≤ 57 then some (a * 10 + (d - 48)) else none)
    (some 0)

/-- ASCII whitespace bytes stripped by Python's `int()`. -/
def wsBytes : List Nat := [9, 10, 11, 12, 13, 32]

/-- Shallow embedding of Python `int(bytes)`: optional surrounding
whitespace, optional single sign, then a nonempty run of decimal digits;
anything else raises `ValueError`, modelled as `none`. -/
def pyInt (bs : List Nat) : Option Int :=
  let core := ((bs.dropWhile (· ∈ wsBytes)).reverse.dropWhile (· ∈ wsBytes)).reverse
  match core with
  | [] => none
  | c :: rest =>
    if c = 45 then (digitsVal rest).map (fun n => -(n : Int))
    else if c = 43 then (digitsVal rest).map (fun n => (n : Int))
    else (digitsVal core).map (fun n => (n : Int))

/-- A TCP receive stream is modelled as the list of data segments the
network delivers, in order; `sock.recv(k)` returns up to `k` bytes from
the front segment, leaving the rest of that segment buffered.  An
exhausted stream (or an empty segment) models the peer having closed the
connection, making `recv` return an empty byte string.  Quantifying over
all segment lists quantifies over every possible delivery chunking of the
received byte stream. -/
abbrev Stream := List (List Nat)

/-- One `sock.recv(k)` call: the bytes returned and the stream left. -/
def recvSeg (segs : Stream) (k : Nat) : List Nat × Stream :=
  match segs with
  | [] => ([], [])
  | s :: rest =>
    let s' := s.drop k
    (s.take k, if s' = [] then rest else s' :: rest)

/-- Total number of undelivered bytes of a stream. -/
def streamLen (segs : Stream) : Nat :=
  (segs.map List.length).sum

/-- Fuel-indexed body of the size-header loop of
`DownloadManager.receive_and_verify`: accumulate `sock.recv(1024)` results
into `size_data` until it contains a newline byte; a recv returning no
bytes means the connection closed while reading the size.  Returns the
accumulated `size_data` and the stream left. -/
def readSizeDataF : Nat → Stream → List Nat → Option (List Nat × Stream)
  | 0, _, _ => none
  | f + 1, segs, acc =>
    if 10 ∈ acc then some (acc, segs)
    else
      match recvSeg segs 1024 with
      | (data, rest) =>
        if data = [] then none
        else readSizeDataF f rest (acc ++ data)

/-- Size-header loop of `receive_and_verify`.  Every recursive step
consumes at least one delivered byte, so `streamLen segs + 1` steps always
suffice and the fuel-exhaustion case is unreachable. -/
def readSizeData (segs : Stream) (acc : List Nat) :
    Option (List Nat × Stream) :=
  readSizeDataF (streamLen segs + 1) segs acc

/-- Payload loop of `DownloadManager.receive_and_verify`: while fewer than
`remaining` bytes are outstanding, recv `min 4096 remaining` bytes; a
recv returning no bytes is a premature close.  Returns the accumulated
payload and whether the loop completed. -/
def readPayload (segs : Stream) (remaining : Nat) (acc : List Nat) :
    List Nat × Bool :=
  if remaining = 0 then (acc, true)
  else
    match recvSeg segs (min 4096 remaining) with
    | (data, rest) =>
      if h : data = [] then (acc, false)
      else readPayload rest (remaining - data.length) (acc ++ data)
termination_by remaining
decreasing_by
  have h1 : 0 < data.length := List.length_pos.mpr h
  omega

/-- Bytes before the first newline, modelling
`size_data.split(newline)[0]`. -/
def lineBeforeNl (l : List Nat) : List Nat :=
  l.takeWhile (fun b => b ≠ 10)

/-- Result of one `receive_and_verify` call.  `installed` records whether
the temporary file was renamed into the chunk store; `declared` is the
parsed decimal size header when one was obtained; `payload` is the byte
sequence actually received (and hashed) in the payload phase. -/
structure RVResult where
  accepted : Bool
  installed : Bool
  declared : Option Int
  payload : List Nat
deriving DecidableEq, Repr

/-- Shallow embedding of `DownloadManager.receive_and_verify` over the
delivered byte stream `buf`, with the SHA-256 hex digest abstracted as
`H`.  Mirrors the source exactly: read the size header, parse
`int(size_data.split(newline)[0])`, receive that many payload bytes, then
compare the byte count and the computed digest with the expected
`checksum`; only on both matches is the temporary file renamed into the
chunk store. -/
def receiveAndVerify (H : List Nat → String) (buf : Stream)
    (checksum : String) : RVResult :=
  match readSizeData buf [] with
  | none => ⟨false, false, none, []⟩
  | some (sdata, rest) =>
    match pyInt (lineBeforeNl sdata) with
    | none => ⟨false, false, none, []⟩
    | some fsize =>
      let pr := if fsize ≤ 0 then ([], true) else readPayload rest fsize.toNat []
      if pr.2 = false then ⟨false, false, some fsize, pr.1⟩
      else if (pr.1.length : Int) ≠ fsize then ⟨false, false, some fsize, pr.1⟩
      else if H pr.1 = checksum then ⟨true, true, some fsize, pr.1⟩
      else ⟨false, false, some fsize, pr.1⟩

/-- One `try_download` attempt against peer `p` for chunk `c`: the network
oracle `net` gives the byte stream that peer would deliver for that chunk,
and the attempt succeeds exactly when `receive_and_verify` accepts it. -/
def tryDownload (H : List Nat → String) (net : String → String → Stream)
    (p c ck : String) : Bool :=
  (receiveAndVerify H (net p c) ck).accepted

/-- Body of `DownloadManager.download_chunk` for one queue item
`(chunk_name, checksum, peers)`: try candidate peers in listed order and
add the chunk to the success set on the first accepted transfer. -/
def processItem (H : List Nat → String) (net : String → String → Stream)
    (s : List String) (item : String × String × List String) : List String :=
  match item.2.2.find? (fun p => tryDownload H net p item.1 item.2.1) with
  | some _ => if item.1 ∈ s then s else s ++ [item.1]
  | none => s

/-- Worker state: the success set and whether the `download_complete`
event has been signalled. -/
abbrev JobState := List String × Bool

/-- Drain the whole chunk queue, checking after every item whether
`len(successful_chunks) == len(chunks)` and signalling completion when it
is (the event, once set, stays set). -/
def runQueue (H : List Nat → String) (net : String → String → Stream)
    (chunks : List String) (queue : List (String × String × List String))
    (st : JobState) : JobState :=
  queue.foldl
    (fun st item =>
      let s := processItem H net st.1 item
      (s, st.2 || decide (s.length = chunks.length)))
    st

/-- Shallow embedding of `DownloadManager.download_and_stitch`: fail fast
with no chunks; otherwise run the workers and stitch exactly when the
completion event fired before the timeout.  Returns
(overall success, whether `stitch_file` ran). -/
def downloadAndStitch (H : List Nat → String)
    (net : String → String → Stream) (chunks : List String)
    (queue : List (String × String × List String)) : Bool × Bool :=
  if chunks = [] then (false, false)
  else
    let r := runQueue H net chunks queue ([], false)
    (r.2, r.2)

/-- Boolean list-prefix test, modelling Python `str.startswith`. -/
def isPrefixList : List Char → List Char → Bool
  | [], _ => true
  | _ :: _, [] => false
  | a :: as, b :: bs => a = b && isPrefixList as bs

/-- Characters after the last underscore, modelling
`x.split(underscore)[-1]` (the whole string when no underscore occurs). -/
def afterLastUnderscore (l : List Char) : List Char :=
  l.foldl (fun acc c => if c = '_' then [] else acc ++ [c]) []

/-- Sort key of `stitch_file`: `int(x.split(underscore)[-1].split(dot)[0])`,
`none` when Python's `int()` would raise. -/
def ordinalOf (name : String) : Option Int :=
  pyInt (((afterLastUnderscore name.data).takeWhile (· ≠ '.')).map Char.toNat)

/-- Chunk-file names matching the job, i.e. starting with
`base_name + underscore`. -/
def matchingChunks (files : List (String × List Nat)) (base : String) :
    List String :=
  (files.map Prod.fst).filter
    (fun n => isPrefixList (base ++ "_").data n.data)

/-- Shallow embedding of `DownloadManager.stitch_file` over the chunk
store `files` (name → bytes).  Returns `none` when a matching name has a
non-numeric suffix (Python's `int()` raises and the error propagates);
otherwise returns the stitching order, the concatenated output bytes, and
the chunk store left after each consumed chunk file is deleted. -/
def stitchFile (files : List (String × List Nat)) (base : String) :
    Option (List String × List Nat × List (String × List Nat)) :=
  let names := matchingChunks files base
  if names.all (fun n => (ordinalOf n).isSome) then
    let sorted := names.mergeSort
      (fun a b => decide ((ordinalOf a).getD 0 ≤ (ordinalOf b).getD 0))
    some (sorted,
      (sorted.map (fun n => (alookup files n).getD [])).flatten,
      files.filter (fun f => !decide (f.1 ∈ names)))
  else none

/-- Metadata announced for one chunk:
`{"size": ..., "checksum": ..., "timestamp": ...}`. -/
structure ChunkMeta where
  size : Nat
  checksum : String
  timestamp : String
deriving DecidableEq, Repr

/-- Encoded length in bytes of one character of a JSON string under
`json.dumps` defaults (`ensure_ascii=True`): the two-character short
escapes, `\uXXXX` escapes for other control and non-ASCII characters
(surrogate pairs beyond the BMP), one byte for printable ASCII. -/
def escLen (c : Char) : Nat :=
  if c = '"' ∨ c = '\\' then 2
  else if c.toNat = 8 ∨ c.toNat = 9 ∨ c.toNat = 10 ∨ c.toNat = 12 ∨ c.toNat = 13 then 2
  else if 32 ≤ c.toNat ∧ c.toNat ≤ 126 then 1
  else if c.toNat ≤ 65535 then 6
  else 12

/-- Encoded length of a JSON string literal (quotes included). -/
def jsonStrLen (s : String) : Nat :=
  2 + (s.data.map escLen).sum

/-- Number of characters in `str(n)`. -/
def digitsLen (n : Nat) : Nat :=
  (natDecimal n).length

/-- Sum of entry lengths of a JSON object, with the 2-byte `", "`
separator between consecutive entries. -/
def entriesLen : List Nat → Nat
  | [] => 0
  | [x] => x
  | x :: y :: rest => x + 2 + entriesLen (y :: rest)

/-- Encoded length of a JSON object given its entry lengths (an entry
length counts the quoted key, the 2-byte `": "`, and the value). -/
def dictLen (l : List Nat) : Nat :=
  2 + entriesLen l

/-- Encoded length of one chunk's metadata object. -/
def metaLen (m : ChunkMeta) : Nat :=
  dictLen [6 + 2 + digitsLen m.size, 10 + 2 + jsonStrLen m.checksum,
    11 + 2 + jsonStrLen m.timestamp]

/-- Encoded length of the `"chunks"` object of a batch. -/
def chunksLen (batch : List (String × ChunkMeta)) : Nat :=
  dictLen (batch.map fun nm => jsonStrLen nm.1 + 2 + metaLen nm.2)

/-- Encoded length of the `"batch_info"` object. -/
def batchInfoLen (cur tot : Nat) : Nat :=
  dictLen [9 + 2 + digitsLen cur, 7 + 2 + digitsLen tot]

/-- Encoded length of `json.dumps(message)` for one announcement message
(keys in insertion order: `peer_ip`, `chunks`, `timestamp`, `batch_info`). -/
def msgLen (peerIp ts : String) (batch : List (String × ChunkMeta))
    (cur tot : Nat) : Nat :=
  dictLen [9 + 2 + jsonStrLen peerIp, 8 + 2 + chunksLen batch,
    11 + 2 + jsonStrLen ts, 12 + 2 + batchInfoLen cur tot]

/-- Split a list into consecutive blocks of `b` elements (the final block
may be shorter), mirroring the index arithmetic
`chunk_items[start_idx:end_idx]` for `b ≥ 1`; also reused for the 4096-byte
read blocks of the chunk server. -/
def chunkify {α : Type} (l : List α) (b : Nat) : List (List α) :=
  match l with
  | [] => []
  | x :: xs =>
    (x :: xs).take (b.max 1) :: chunkify ((x :: xs).drop (b.max 1)) b
termination_by l.length
decreasing_by simp

/-- One emitted announcement message: its batch and its
`batch_info` numbers. -/
abbrev Msg := List (String × ChunkMeta) × Nat × Nat

/-- Batch loop of `_announce_chunks_in_batches`: send each batch whose
encoding fits in the 60000-byte margin; stop and report failure at the
first oversized batch (the already-sent messages stay sent). -/
def goBatches (peerIp ts : String) (tot : Nat) :
    List (List (String × ChunkMeta)) → Nat → List Msg × Bool
  | [], _ => ([], true)
  | b :: bs, cur =>
    if 60000 < msgLen peerIp ts b cur tot then ([], false)
    else
      let r := goBatches peerIp ts tot bs (cur + 1)
      ((b, cur, tot) :: r.1, r.2)

/-- Shallow embedding of `ChunkAnnouncer._announce_chunks_in_batches`,
with explicit recursion fuel because the Python recursion
(`new_batch_size = max(1, max_batch_size // 2)`) is not structurally
bounded.  Returns all messages actually sent and whether the procedure
finished (fuel exhaustion models the unbounded recursion). -/
def announceBatches (peerIp ts : String) :
    Nat → List (String × ChunkMeta) → Nat → List Msg × Bool
  | 0, _, _ => ([], false)
  | fuel + 1, items, maxB =>
    let tot := (items.length + maxB - 1) / maxB
    let r := goBatches peerIp ts tot (chunkify items maxB) 1
    if r.2 then (r.1, true)
    else
      let r2 := announceBatches peerIp ts fuel items (Nat.max 1 (maxB / 2))
      (r.1 ++ r2.1, r2.2)

/-- A parsed JSON request, modelled as its (string-valued) fields. -/
abbrev Req := List (String × String)

/-- The literal error token sent for a missing chunk. -/
def errorBytes : List Nat :=
  "ERROR: Chunk not found".data.map Char.toNat

/-- Shallow embedding of `ChunkServer._handle_chunk_request`: the sequence
of `sendall` payloads for one request, over the chunk store `fs`. -/
def chunkResponse (fs : List (String × List Nat)) (name : String) :
    List (List Nat) :=
  match alookup fs name with
  | none => [errorBytes]
  | some bytes => (natDecimal bytes.length ++ [10]) :: chunkify bytes 4096

/-- Shallow embedding of `ChunkServer.handle_client`: fold over the
sequence of parsed requests (`none` models `_receive_request` returning
`None`).  Returns the responses sent and whether the handler left its
loop via `break` (it also stops when the modelled input runs out,
reported as `false`). -/
def handleClient (fs : List (String × List Nat)) :
    List (Option Req) → List (List (List Nat)) × Bool
  | [] => ([], false)
  | none :: _ => ([], true)
  | some r :: rest =>
    if r = [] then ([], true)
    else
      match alookup r "chunk" with
      | some name =>
        let t := handleClient fs rest
        (chunkResponse fs name :: t.1, t.2)
      | none => handleClient fs rest

/-- Effect on one content-directory slot of folding in one peer's report
for that chunk: `och` is the checksum the peer reports for the chunk (if
any) and `oe` the slot's current value. -/
def applyOne (ip : String) (och : Option String) (oe : Option CDEntry) :
    Option CDEntry :=
  match och with
  | none => oe
  | some sum =>
    match oe with
    | none => some ⟨sum, [ip]⟩
    | some e =>
      if e.checksum ≠ sum then some e
      else if ip ∈ e.peers then some e
      else some ⟨e.checksum, e.peers ++ [ip]⟩

/-- Checksum reported for chunk `c` by the first peer (in table order)
holding it — the checksum `get_content_dict` records. -/
def firstReport (ps : Peers) (c : String) : Option String :=
  ps.findSome? (fun p => alookup p.2.chunks c)

/-- Slot-level view of the `get_content_dict` fold. -/
def cdAt (c : String) (ps : Peers) (oe : Option CDEntry) : Option CDEntry :=
  ps.foldl (fun oe p => applyOne p.1 (alookup p.2.chunks c) oe) oe

/-- Encoded length of one emitted message. -/
def msgLenOf (peerIp ts : String) (m : Msg) : Nat :=
  msgLen peerIp ts m.1 m.2.1 m.2.2

/-- The batch split never finishes on this chunk map, whatever the fuel
and the (positive) starting batch size: once the batch size reaches 1 it
can shrink no further, so an entry whose singleton message exceeds the
margin is retried forever. -/
def announceDiverges (items : List (String × ChunkMeta)) : Prop :=
  ∀ peerIp ts fuel maxB, 1 ≤ maxB →
    (announceBatches peerIp ts fuel items maxB).2 = false

/-- A chunk name so long that even a singleton batch encodes above the
60000-byte margin. -/
def bigName : String :=
  String.mk (List.replicate 60000 'a')

/-- A concrete peer table for the C3 witness: 1.1.1.1 and 3.3.3.3 agree on
chunk c while 2.2.2.2 disagrees. -/
def psWitness : Peers :=
  [("1.1.1.1", ⟨5, [("c", "x")]⟩), ("2.2.2.2", ⟨6, [("c", "y")]⟩),
    ("3.3.3.3", ⟨7, [("c", "x")]⟩)]

/-- Two content-directory entries with the same checksum and the same set
of peers (the peer lists may differ in order). -/
def entryEquiv (e1 e2 : CDEntry) : Prop :=
  e1.checksum = e2.checksum ∧ ∀ p, p ∈ e1.peers ↔ p ∈ e2.peers

/-- Lift of `entryEquiv` to optional entries. -/
def optEquiv : Option CDEntry → Option CDEntry → Prop
  | none, none => True
  | some e1, some e2 => entryEquiv e1 e2
  | _, _ => False

/-- Two content directories with the same chunk names, the same checksum
per chunk, and the same peer set per chunk. -/
def cdEquiv (c1 c2 : List (String × CDEntry)) : Prop :=
  ∀ name, optEquiv (alookup c1 name) (alookup c2 name)

/-! ## Lemmas and claim theorems -/

theorem alookup_aset {β : Type} (l : List (String × β)) (k c : String) (v : β) :
    alookup (aset l k v) c = if c = k then some v else alookup l c := by
  induction l with
  | nil => by_cases h : c = k <;> simp [aset, alookup, h]
  | cons hd tl ih =>
    obtain ⟨k', w⟩ := hd
    by_cases h1 : k = k'
    · subst h1
      by_cases h2 : c = k <;> simp [aset, alookup, h2]
    · by_cases h2 : c = k'
      · subst h2
        have hck : ¬c = k := fun h => h1 h.symm
        simp [aset, alookup, h1, hck]
      · simp [aset, alookup, h1, h2, ih]

theorem alookup_append {β : Type} (l1 l2 : List (String × β)) (c : String) :
    alookup (l1 ++ l2) c = ((alookup l1 c).orElse (fun _ => alookup l2 c)) := by
  induction l1 with
  | nil => simp [alookup]
  | cons hd tl ih =>
    obtain ⟨k, v⟩ := hd
    by_cases h : c = k <;> simp [alookup, h, ih]

theorem aset_of_absent {β : Type} (l : List (String × β)) (k : String) (v : β)
    (h : alookup l k = none) : aset l k v = l ++ [(k, v)] := by
  induction l with
  | nil => simp [aset]
  | cons hd tl ih =>
    obtain ⟨k', w⟩ := hd
    by_cases hk : k = k'
    · simp [alookup, hk] at h
    · simp [alookup, hk] at h
      simp [aset, hk, ih h]

theorem alookup_aerase_ne {β : Type} (l : List (String × β)) (k c : String)
    (h : c ≠ k) : alookup (aerase l k) c = alookup l c := by
  induction l with
  | nil => simp [aerase]
  | cons hd tl ih =>
    obtain ⟨k', w⟩ := hd
    by_cases h1 : k = k'
    · subst h1
      simp [aerase, alookup, h]
    · by_cases h2 : c = k' <;> simp [aerase, alookup, h1, h2, ih]

/-! ## Association-list lemmas shared by the claim proofs -/

theorem aset_aset {β : Type} (l : List (String × β)) (k : String) (v v' : β) :
    aset (aset l k v) k v' = aset l k v' := by
  induction l with
  | nil => simp [aset]
  | cons hd tl ih =>
    obtain ⟨k', w⟩ := hd
    by_cases h : k = k' <;> simp [aset, h, ih]

theorem aset_length_present {β : Type} (l : List (String × β)) (k : String)
    (v w : β) (h : alookup l k = some w) : (aset l k v).length = l.length := by
  induction l with
  | nil => simp [alookup] at h
  | cons hd tl ih =>
    obtain ⟨k', w'⟩ := hd
    by_cases hk : k = k'
    · simp [aset, hk]
    · simp [alookup, hk] at h
      simp [aset, hk, ih h]

theorem aerase_length_present {β : Type} (l : List (String × β)) (k : String)
    (w : β) (h : alookup l k = some w) : l.length = (aerase l k).length + 1 := by
  induction l with
  | nil => simp [alookup] at h
  | cons hd tl ih =>
    obtain ⟨k', w'⟩ := hd
    by_cases hk : k = k'
    · simp [aerase, hk]
    · simp [alookup, hk] at h
      simp [aerase, hk, ih h]

theorem alookup_isSome_of_mem {β : Type} (l : List (String × β))
    (e : String × β) (h : e ∈ l) : (alookup l e.1).isSome := by
  induction l with
  | nil => simp at h
  | cons hd tl ih =>
    obtain ⟨k', w'⟩ := hd
    by_cases hk : e.1 = k'
    · simp [alookup, hk]
    · rcases List.mem_cons.mp h with h1 | h1
      · rw [h1] at hk; simp at hk
      · simp [alookup, hk, ih h1]

theorem alookup_some_mem {β : Type} (l : List (String × β)) (k : String)
    (v : β) (h : alookup l k = some v) : (k, v) ∈ l := by
  induction l with
  | nil => simp [alookup] at h
  | cons hd tl ih =>
    obtain ⟨k', w'⟩ := hd
    by_cases hk : k = k'
    · simp [alookup, hk] at h
      simp [hk, h]
    · simp [alookup, hk] at h
      exact List.mem_cons_of_mem _ (ih h)

theorem mem_alookup_of_nodup {β : Type} (l : List (String × β))
    (hnd : (l.map Prod.fst).Nodup) (p : String × β) (h : p ∈ l) :
    alookup l p.1 = some p.2 := by
  induction l with
  | nil => simp at h
  | cons hd tl ih =>
    obtain ⟨k', w'⟩ := hd
    rw [List.map_cons, List.nodup_cons] at hnd
    rcases List.mem_cons.mp h with h1 | h1
    · rw [h1]; simp [alookup]
    · have hk : ¬p.1 = k' := by
        intro hh
        have hm : p.1 ∈ tl.map Prod.fst := List.mem_map_of_mem Prod.fst h1
        exact hnd.1 (hh ▸ hm)
      simp [alookup, hk, ih hnd.2 h1]

theorem aset_comm {β : Type} (l : List (String × β)) (k1 k2 : String)
    (v1 v2 : β) (hne : k1 ≠ k2) (h : (alookup l k1).isSome) :
    aset (aset l k1 v1) k2 v2 = aset (aset l k2 v2) k1 v1 := by
  induction l with
  | nil => simp [alookup] at h
  | cons hd tl ih =>
    obtain ⟨k', w'⟩ := hd
    by_cases h1 : k1 = k'
    · subst h1
      have h2 : ¬k2 = k1 := fun hh => hne hh.symm
      simp [aset, h2, hne]
    · by_cases h2 : k2 = k'
      · subst h2
        simp [aset, h1]
      · simp [alookup, h1] at h
        simp [aset, h1, h2, ih h]

/-! ## Connection-pool lemmas -/

theorem foldlMin_spec (xs : Pool) (best : String × Nat) :
    (xs.foldl (fun b y => if y.2 < b.2 then y else b) best = best ∨
      xs.foldl (fun b y => if y.2 < b.2 then y else b) best ∈ xs) ∧
    (xs.foldl (fun b y => if y.2 < b.2 then y else b) best).2 ≤ best.2 ∧
    ∀ x ∈ xs, (xs.foldl (fun b y => if y.2 < b.2 then y else b) best).2 ≤ x.2 := by
  induction xs generalizing best with
  | nil => simp
  | cons hd tl ih =>
    by_cases h : hd.2 < best.2
    · obtain ⟨m1, m2, m3⟩ := ih hd
      refine ⟨?_, ?_, ?_⟩
      · simp [h]
        rcases m1 with h1 | h1
        · exact Or.inr (Or.inl h1)
        · exact Or.inr (Or.inr h1)
      · simp [h]
        exact le_trans m2 (le_of_lt h)
      · intro x hx
        simp [h]
        rcases List.mem_cons.mp hx with h1 | h1
        · rw [h1]; exact m2
        · exact m3 x h1
    · obtain ⟨m1, m2, m3⟩ := ih best
      refine ⟨?_, ?_, ?_⟩
      · simp [h]
        rcases m1 with h1 | h1
        · exact Or.inl h1
        · exact Or.inr (Or.inr h1)
      · simp [h, m2]
      · intro x hx
        simp [h]
        rcases List.mem_cons.mp hx with h1 | h1
        · rw [h1]; omega
        · exact m3 x h1

theorem poolMin_spec (p : Pool) (hne : p ≠ []) :
    ∃ e, poolMin p = some e ∧ e ∈ p ∧ ∀ x ∈ p, e.2 ≤ x.2 := by
  match p with
  | [] => exact absurd rfl hne
  | x :: xs =>
    obtain ⟨m1, m2, m3⟩ := foldlMin_spec xs x
    refine ⟨_, rfl, ?_, ?_⟩
    · rcases m1 with h1 | h1
      · rw [h1]; exact List.mem_cons_self x xs
      · exact List.mem_cons_of_mem _ h1
    · intro y hy
      rcases List.mem_cons.mp hy with h1 | h1
      · rw [h1]; exact m2
      · exact m3 y h1

theorem getConnTail_length (q : Pool) (peer : String) (now maxC : Nat)
    (hmax : 1 ≤ maxC) (hq : q.length ≤ maxC) :
    (getConnTail q peer now maxC).1.length ≤ maxC := by
  by_cases hcap : maxC ≤ q.length
  · have hne : q ≠ [] := by
      intro h; rw [h] at hcap; simp at hcap; omega
    obtain ⟨e, he, hmem, _⟩ := poolMin_spec q hne
    obtain ⟨w, hw⟩ := Option.isSome_iff_exists.mp (alookup_isSome_of_mem q e hmem)
    have hlen := aerase_length_present q e.1 w hw
    simp [getConnTail, hcap, removeOldest, he]
    omega
  · simp [getConnTail, hcap]
    omega

theorem getConnection_length (p : Pool) (peer : String) (now : Nat)
    (live : Bool) (maxC : Nat) (hmax : 1 ≤ maxC) (hp : p.length ≤ maxC) :
    (getConnection p peer now live maxC).1.length ≤ maxC := by
  unfold getConnection
  by_cases hl : (alookup p peer).isSome
  · obtain ⟨w, hw⟩ := Option.isSome_iff_exists.mp hl
    cases live with
    | true =>
      simp [hl]
      rw [aset_length_present p peer now w hw]
      exact hp
    | false =>
      simp [hl]
      have hlen := aerase_length_present p peer w hw
      exact getConnTail_length _ peer now maxC hmax (by omega)
  · simp [hl]
    exact getConnTail_length p peer now maxC hmax hp

/-! ## Byte-stream lemmas for the checksum gate -/

theorem recvSeg_fst_len (segs : Stream) (k : Nat) :
    (recvSeg segs k).1.length ≤ k := by
  match segs with
  | [] => simp [recvSeg]
  | s :: rest => simp [recvSeg]

theorem readPayload_len (segs : Stream) (remaining : Nat) (acc : List Nat) :
    ((readPayload segs remaining acc).2 = true →
      (readPayload segs remaining acc).1.length = acc.length + remaining) ∧
    ((readPayload segs remaining acc).2 = false →
      (readPayload segs remaining acc).1.length < acc.length + remaining) := by
  induction segs, remaining, acc using readPayload.induct with
  | case1 segs acc => simp [readPayload]
  | case2 segs remaining acc h0 rest hr =>
    rw [readPayload]
    simp [h0, hr]
    omega
  | case3 segs remaining acc h0 data rest hr hne ih =>
    rw [readPayload]
    simp only [h0, hr, if_neg h0, hne, dif_neg hne]
    have hd : data.length ≤ remaining := by
      have := recvSeg_fst_len segs (min 4096 remaining)
      rw [hr] at this
      simp at this
      omega
    obtain ⟨iht, ihf⟩ := ih
    constructor
    · intro hflag
      have := iht hflag
      simp at this ⊢
      omega
    · intro hflag
      have := ihf hflag
      simp at this ⊢
      omega

/-- C10: the empty-announcement guard of `update_peer` only protects
already-known peers.  Calling `update_peer` with an empty chunk map for an
unknown peer IP appends a fresh entry (empty chunk map, fresh `last_seen`)
without setting `content_modified`; the same call for a known peer leaves
the table — including that peer's chunk map and `last_seen` — unchanged. -/
theorem c10_empty_update_guard (ps : Peers) (ip : String) (t : Nat) :
    (alookup ps ip = none →
      updatePeer ps ip [] t = (ps ++ [(ip, ⟨t, []⟩)], false)) ∧
    ((alookup ps ip).isSome → updatePeer ps ip [] t = (ps, false)) := by
  constructor
  · intro h
    simp [updatePeer, h, aset_of_absent ps ip _ h]
  · intro h
    simp [updatePeer, h]

/-- C10 witness: concrete instance of `c10_empty_update_guard` for a table
that knows peer 1.1.1.1 but not peer 2.2.2.2. -/
theorem c10_witness :
    alookup ([("1.1.1.1", ⟨3, [("c", "x")]⟩)] : Peers) "2.2.2.2" = none ∧
    updatePeer [("1.1.1.1", ⟨3, [("c", "x")]⟩)] "2.2.2.2" [] 7 =
      ([("1.1.1.1", ⟨3, [("c", "x")]⟩), ("2.2.2.2", ⟨7, []⟩)], false) :=
  ⟨by decide,
    (c10_empty_update_guard [("1.1.1.1", ⟨3, [("c", "x")]⟩)] "2.2.2.2" 7).1
      (by decide)⟩

/-- C5 (amended): re-processing an identical announcement at the same
instant is a no-op on the peer-manager state — the peer table (that peer's
entry included) and hence the derived content directory are unchanged, and
`content_modified` is not newly set — but the listener persists the
content dictionary after every non-empty announcement, so the duplicate
still triggers a (redundant) disk write. -/
theorem c5_duplicate_announcement (s : PMState) (ip : String)
    (chunks : List (String × String)) (t : Nat) :
    processAnnouncement (processAnnouncement s ip chunks t).1 ip chunks t =
      processAnnouncement s ip chunks t ∧
    (chunks ≠ [] → (processAnnouncement s ip chunks t).2 = true) := by
  constructor
  · by_cases hch : chunks = []
    · simp [processAnnouncement, hch]
    · simp [processAnnouncement, updatePeer, hch, alookup_aset, aset_aset]
  · intro hch
    simp [processAnnouncement, hch]

/-- C5 witness: concrete duplicate announcement, discharging the
non-emptiness hypothesis of `c5_duplicate_announcement`. -/
theorem c5_witness :
    ([("c", "x")] : List (String × String)) ≠ [] ∧
    (processAnnouncement (processAnnouncement ⟨[], false⟩ "2.2.2.2"
        [("c", "x")] 3).1 "2.2.2.2" [("c", "x")] 3 =
      processAnnouncement ⟨[], false⟩ "2.2.2.2" [("c", "x")] 3) ∧
    (processAnnouncement ⟨[], false⟩ "2.2.2.2" [("c", "x")] 3).2 = true :=
  ⟨by decide,
    (c5_duplicate_announcement ⟨[], false⟩ "2.2.2.2" [("c", "x")] 3).1,
    (c5_duplicate_announcement ⟨[], false⟩ "2.2.2.2" [("c", "x")] 3).2
      (by decide)⟩

/-- C5 counterexample: the claim's "no needless disk write" part fails —
replaying the very announcement that was just applied still makes the
listener write the content dictionary file again. -/
theorem c5_counterexample :
    (processAnnouncement
      (processAnnouncement ⟨[], false⟩ "1.1.1.1" [("c", "x")] 5).1
      "1.1.1.1" [("c", "x")] 5).2 = true := by decide

/-- C6: the pool size never exceeds `max_connections` across any sequence
of acquisitions, and when an unknown peer is requested at capacity the
entry evicted by `_remove_oldest_connection` is one holding the minimal
`last_used` timestamp among all pooled entries (its socket is closed and
the fresh connection is appended). -/
theorem c6_pool_bound_lru (maxC : Nat) (hmax : 1 ≤ maxC) :
    (∀ (p : Pool) (reqs : List (String × Nat × Bool)), p.length ≤ maxC →
      (runAcquisitions p reqs maxC).length ≤ maxC) ∧
    (∀ (p : Pool) (peer : String) (now : Nat) (live : Bool),
      alookup p peer = none → maxC ≤ p.length →
      ∃ e, e ∈ p ∧ (∀ x ∈ p, e.2 ≤ x.2) ∧
        getConnection p peer now live maxC =
          (aerase p e.1 ++ [(peer, now)], some e)) := by
  constructor
  · intro p reqs
    induction reqs generalizing p with
    | nil => intro hp; simpa [runAcquisitions] using hp
    | cons r rs ih =>
      intro hp
      have hstep := getConnection_length p r.1 r.2.1 r.2.2 maxC hmax hp
      simpa [runAcquisitions, List.foldl_cons] using ih _ hstep
  · intro p peer now live hl hcap
    have hne : p ≠ [] := by
      intro h; rw [h] at hcap; simp at hcap; omega
    obtain ⟨e, he, hmem, hmin⟩ := poolMin_spec p hne
    refine ⟨e, hmem, hmin, ?_⟩
    simp [getConnection, hl, getConnTail, hcap, removeOldest, he]

/-- C6 witness: three distinct peers through a pool of capacity 2, and a
concrete eviction at capacity (entry ("a", 1) is the LRU). -/
theorem c6_witness :
    1 ≤ 2 ∧ ([] : Pool).length ≤ 2 ∧
    (runAcquisitions [] [("a", 1, true), ("b", 2, true), ("c", 3, true)]
      2).length ≤ 2 ∧
    alookup ([("a", 1), ("b", 2)] : Pool) "c" = none ∧
    2 ≤ ([("a", 1), ("b", 2)] : Pool).length ∧
    ∃ e, e ∈ ([("a", 1), ("b", 2)] : Pool) ∧
      (∀ x ∈ ([("a", 1), ("b", 2)] : Pool), e.2 ≤ x.2) ∧
      getConnection [("a", 1), ("b", 2)] "c" 7 true 2 =
        (aerase [("a", 1), ("b", 2)] e.1 ++ [("c", 7)], some e) :=
  ⟨by decide, by decide,
    (c6_pool_bound_lru 2 (by decide)).1 [] _ (by decide),
    by decide, by decide,
    (c6_pool_bound_lru 2 (by decide)).2 [("a", 1), ("b", 2)] "c" 7 true
      (by decide) (by decide)⟩

/-- C1: for every delivered byte stream, `receive_and_verify` accepts (and
renames the temporary file into the chunk store) exactly when a decimal
size header was obtained, the number of payload bytes received equals that
declared size, and the digest of the received payload equals the expected
checksum; in every other case — premature close, unparsable or absent
header, size mismatch or checksum mismatch — it rejects and the temporary
file is not installed. -/
theorem c1_checksum_gate (H : List Nat → String) (buf : Stream)
    (ck : String) :
    ((receiveAndVerify H buf ck).accepted = true ↔
      (∃ n : Int, (receiveAndVerify H buf ck).declared = some n ∧
        (((receiveAndVerify H buf ck).payload.length : Int) = n ∧
          H (receiveAndVerify H buf ck).payload = ck))) ∧
    (receiveAndVerify H buf ck).installed =
      (receiveAndVerify H buf ck).accepted := by
  unfold receiveAndVerify
  cases h1 : readSizeData buf [] with
  | none => simp
  | some pr =>
    obtain ⟨sdata, rest⟩ := pr
    dsimp only
    cases h2 : pyInt (lineBeforeNl sdata) with
    | none => simp [h2]
    | some fsize =>
      by_cases h3 : fsize ≤ 0
      · by_cases h5 : (0 : Int) = fsize
        · by_cases h6 : H [] = ck <;>
            simp [h3, ← h5, h6]
        · simp [h3, h5]
      · obtain ⟨hlen_t, hlen_f⟩ := readPayload_len rest fsize.toNat []
        cases hflag : (readPayload rest fsize.toNat []).2 with
        | false =>
          have hlt := hlen_f hflag
          simp at hlt
          have hne : (((readPayload rest fsize.toNat []).1.length : Int) ≠ fsize) := by
            have : (fsize.toNat : Int) = fsize := Int.toNat_of_nonneg (by omega)
            omega
          simp [h3, hflag, hne]
        | true =>
          have heq := hlen_t hflag
          simp at heq
          have heq' : (((readPayload rest fsize.toNat []).1.length : Int) = fsize) := by
            have : (fsize.toNat : Int) = fsize := Int.toNat_of_nonneg (by omega)
            omega
          by_cases h6 : H (readPayload rest fsize.toNat []).1 = ck <;>
            simp [h3, hflag, heq', h6]

/-! ## Block-splitting lemmas for the chunk server -/

theorem chunkify_flatten {α : Type} (l : List α) (b : Nat) :
    (chunkify l b).flatten = l := by
  induction l, b using chunkify.induct with
  | case1 b => simp [chunkify]
  | case2 b x xs ih =>
    rw [chunkify]
    simp [ih, List.take_append_drop]

theorem chunkify_block_len {α : Type} (l : List α) (b : Nat) :
    ∀ blk ∈ chunkify l b, blk.length ≤ b.max 1 := by
  induction l, b using chunkify.induct with
  | case1 b => simp [chunkify]
  | case2 b x xs ih =>
    rw [chunkify]
    intro blk hblk
    rcases List.mem_cons.mp hblk with h1 | h1
    · rw [h1, List.length_take]
      exact min_le_left _ _
    · exact ih blk h1

/-- C9 (amended): a *non-empty* parsed request lacking the `chunk` field is
malformed and the connection keeps awaiting the next request (an empty
parsed request instead terminates the handler, see the counterexample); a
request for a missing chunk is answered with exactly the literal
`ERROR: Chunk not found` and the connection continues; a request for an
existing chunk is answered with the decimal size in ASCII digits, one
newline byte, and the file's bytes streamed in blocks of at most 4096
bytes, after which the handler awaits the next request. -/
theorem c9_request_handling (fs : List (String × List Nat)) (r : Req)
    (rest : List (Option Req)) :
    (r ≠ [] → alookup r "chunk" = none →
      handleClient fs (some r :: rest) = handleClient fs rest) ∧
    (∀ name, alookup r "chunk" = some name →
      handleClient fs (some r :: rest) =
        (chunkResponse fs name :: (handleClient fs rest).1,
          (handleClient fs rest).2)) ∧
    (∀ name, alookup r "chunk" = some name → alookup fs name = none →
      chunkResponse fs name = [errorBytes]) ∧
    (∀ name bytes, alookup r "chunk" = some name → alookup fs name = some bytes →
      chunkResponse fs name =
        (natDecimal bytes.length ++ [10]) :: chunkify bytes 4096 ∧
      (chunkify bytes 4096).flatten = bytes ∧
      ∀ blk ∈ chunkify bytes 4096, blk.length ≤ 4096) := by
  refine ⟨?_, ?_, ?_, ?_⟩
  · intro hne hnone
    simp [handleClient, hne, hnone]
  · intro name hname
    have hne : r ≠ [] := by
      intro h; rw [h] at hname; simp [alookup] at hname
    simp [handleClient, hne, hname]
  · intro name hname hmiss
    simp [chunkResponse, hmiss]
  · intro name bytes hname hbytes
    refine ⟨by simp [chunkResponse, hbytes], chunkify_flatten bytes 4096, ?_⟩
    intro blk hblk
    have := chunkify_block_len bytes 4096 blk hblk
    simpa using this

/-- C9 witness: concrete instances of `c9_request_handling` — a non-empty
malformed request that is skipped, a missing chunk answered with the error
literal, and a present chunk answered with header and blocks. -/
theorem c9_witness :
    (([("x", "y")] : Req) ≠ [] ∧ alookup ([("x", "y")] : Req) "chunk" = none ∧
      handleClient [("a", [65])] [some [("x", "y")], some [("chunk", "a")]] =
        handleClient [("a", [65])] [some [("chunk", "a")]]) ∧
    (alookup ([("chunk", "b")] : Req) "chunk" = some "b" ∧
      alookup ([("a", [65])] : List (String × List Nat)) "b" = none ∧
      chunkResponse [("a", [65])] "b" = [errorBytes]) ∧
    (alookup ([("chunk", "a")] : Req) "chunk" = some "a" ∧
      alookup ([("a", [65])] : List (String × List Nat)) "a" = some [65] ∧
      chunkResponse [("a", [65])] "a" =
        (natDecimal 1 ++ [10]) :: chunkify [65] 4096) :=
  ⟨⟨by decide, by decide,
      (c9_request_handling [("a", [65])] [("x", "y")]
        [some [("chunk", "a")]]).1 (by decide) (by decide)⟩,
   ⟨by decide, by decide,
      (c9_request_handling [("a", [65])] [("chunk", "b")] []).2.2.1 "b"
        (by decide) (by decide)⟩,
   ⟨by decide, by decide,
      ((c9_request_handling [("a", [65])] [("chunk", "a")] []).2.2.2 "a" [65]
        (by decide) (by decide)).1⟩⟩

/-- C9 counterexample: an empty parsed request (`{}`) also lacks the
`chunk` field, but `handle_client` treats it as falsy and breaks out of
the loop — the well-formed request queued behind it is never served,
contradicting "the connection keeps awaiting the next request". -/
theorem c9_counterexample :
    handleClient [("a", [65])] [some [], some [("chunk", "a")]] = ([], true) ∧
    (handleClient [("a", [65])] [some [("chunk", "a")]]).1.length = 1 := by
  constructor
  · simp [handleClient]
  · simp [handleClient, alookup]

/-! ## Reassembly lemmas -/

theorem alookup_filter_out {β : Type} (l : List (String × β))
    (names : List String) (k : String) (hk : k ∈ names) :
    alookup (l.filter (fun f => !decide (f.1 ∈ names))) k = none := by
  induction l with
  | nil => simp [alookup]
  | cons hd tl ih =>
    by_cases hp : hd.1 ∈ names
    · simp [List.filter_cons, hp, ih]
    · have hne : ¬k = hd.1 := by
        intro h; rw [h] at hk; exact hp hk
      simp [List.filter_cons, hp, alookup, hne, ih]

/-- C7: reassembly stitches exactly the chunk files matching the job's
base-name prefix, in ascending order of the numeric ordinal parsed from
each name's suffix (numeric, not lexicographic, comparison), concatenates
their bytes into the output in that order, and deletes every consumed
chunk file from the store while keeping all non-matching files. -/
theorem c7_stitch_numeric_order (files : List (String × List Nat))
    (base : String)
    (hparse : (matchingChunks files base).all
      (fun n => (ordinalOf n).isSome) = true) :
    ∃ order out rest, stitchFile files base = some (order, out, rest) ∧
      order.Perm (matchingChunks files base) ∧
      order.Pairwise
        (fun a b => (ordinalOf a).getD 0 ≤ (ordinalOf b).getD 0) ∧
      out = (order.map (fun n => (alookup files n).getD [])).flatten ∧
      (∀ n ∈ matchingChunks files base, alookup rest n = none) ∧
      (∀ f ∈ files, f.1 ∉ matchingChunks files base → f ∈ rest) := by
  refine ⟨(matchingChunks files base).mergeSort
      (fun a b => decide ((ordinalOf a).getD 0 ≤ (ordinalOf b).getD 0)),
    (((matchingChunks files base).mergeSort
      (fun a b => decide ((ordinalOf a).getD 0 ≤ (ordinalOf b).getD 0))).map
        (fun n => (alookup files n).getD [])).flatten,
    files.filter (fun f => !decide (f.1 ∈ matchingChunks files base)),
    by simp [stitchFile, hparse], ?_, ?_, rfl, ?_, ?_⟩
  · exact List.mergeSort_perm _ _
  · have hs := @List.sorted_mergeSort String
      (fun a b => decide ((ordinalOf a).getD 0 ≤ (ordinalOf b).getD 0))
      (fun a b c hab hbc => by
        rw [decide_eq_true_eq] at *
        exact le_trans hab hbc)
      (fun a b => by
        rcases le_total ((ordinalOf a).getD 0) ((ordinalOf b).getD 0) with h | h
        · simp [h]
        · simp [h])
      (matchingChunks files base)
    exact hs.imp (fun h => of_decide_eq_true h)
  · intro n hn
    exact alookup_filter_out files (matchingChunks files base) n hn
  · intro f hf hnot
    exact List.mem_filter.mpr ⟨hf, by simpa using hnot⟩

theorem alookup_none_of_not_mem {β : Type} (l : List (String × β))
    (k : String) (h : k ∉ l.map Prod.fst) : alookup l k = none := by
  induction l with
  | nil => simp [alookup]
  | cons hd tl ih =>
    obtain ⟨k', w⟩ := hd
    rw [List.map_cons] at h
    have h1 : ¬k = k' := by
      intro hh; exact h (by rw [hh]; exact List.mem_cons_self _ _)
    have h2 : k ∉ tl.map Prod.fst := by
      intro hh; exact h (List.mem_cons_of_mem _ hh)
    simp [alookup, h1, ih h2]

theorem lookup_stepChunk (ip : String) (cd : List (String × CDEntry))
    (d s c : String) :
    alookup (stepChunk ip cd (d, s)) c =
      if c = d then applyOne ip (some s) (alookup cd d) else alookup cd c := by
  unfold stepChunk
  cases h : alookup cd d with
  | none =>
    by_cases hc : c = d
    · subst hc
      simp [alookup_append, h, alookup, applyOne]
    · simp [alookup_append, hc, alookup]
  | some e =>
    by_cases hck : e.checksum ≠ s
    · by_cases hc : c = d
      · subst hc
        simp [hck, applyOne, h]
      · simp [hck, applyOne, hc]
    · by_cases hip : ip ∈ e.peers
      · by_cases hc : c = d
        · subst hc
          simp [hck, hip, applyOne, h]
        · simp [hck, hip, applyOne, hc]
      · by_cases hc : c = d
        · subst hc
          simp [hck, hip, applyOne, alookup_aset, h]
        · simp [hck, hip, applyOne, alookup_aset, hc]

theorem lookup_stepPeer (ip : String) (t : Nat)
    (ch : List (String × String)) (cd : List (String × CDEntry)) (c : String)
    (hnd : (ch.map Prod.fst).Nodup) :
    alookup (stepPeer cd (ip, ⟨t, ch⟩)) c =
      applyOne ip (alookup ch c) (alookup cd c) := by
  unfold stepPeer
  dsimp only
  induction ch generalizing cd with
  | nil => simp [alookup, applyOne]
  | cons hd tl ih =>
    obtain ⟨d, s⟩ := hd
    rw [List.map_cons, List.nodup_cons] at hnd
    rw [List.foldl_cons, ih _ hnd.2, lookup_stepChunk]
    by_cases hc : c = d
    · subst hc
      rw [alookup_none_of_not_mem tl c hnd.1]
      simp [alookup, applyOne]
    · simp [alookup, hc]

theorem cdAt_cons (c : String) (p : String × PeerEntry) (tl : Peers)
    (oe : Option CDEntry) :
    cdAt c (p :: tl) oe = cdAt c tl (applyOne p.1 (alookup p.2.chunks c) oe) :=
  rfl

theorem gcd_lookup_aux (ps : Peers) (cd : List (String × CDEntry))
    (c : String)
    (hch : ∀ p ∈ ps, ((p.2.chunks).map Prod.fst).Nodup) :
    alookup (ps.foldl stepPeer cd) c = cdAt c ps (alookup cd c) := by
  induction ps generalizing cd with
  | nil => simp [cdAt]
  | cons p tl ih =>
    obtain ⟨ip, e⟩ := p
    obtain ⟨t, ch⟩ := e
    have h1 : (ch.map Prod.fst).Nodup :=
      hch (ip, ⟨t, ch⟩) (List.mem_cons_self _ _)
    rw [List.foldl_cons, ih _ (fun q hq => hch q (List.mem_cons_of_mem _ hq)),
      lookup_stepPeer ip t ch cd c h1, cdAt_cons]

theorem gcd_lookup (ps : Peers) (c : String)
    (hch : ∀ p ∈ ps, ((p.2.chunks).map Prod.fst).Nodup) :
    alookup (getContentDict ps) c = cdAt c ps none := by
  have h := gcd_lookup_aux ps [] c hch
  simpa [getContentDict, alookup] using h

theorem cdAt_some (c : String) (ps : Peers) (e0 : CDEntry) :
    ∃ e, cdAt c ps (some e0) = some e ∧ e.checksum = e0.checksum ∧
      ∀ ip, ip ∈ e.peers ↔ (ip ∈ e0.peers ∨
        ∃ p ∈ ps, p.1 = ip ∧ alookup p.2.chunks c = some e0.checksum) := by
  induction ps generalizing e0 with
  | nil => exact ⟨e0, rfl, rfl, by simp⟩
  | cons p tl ih =>
    rw [cdAt_cons]
    cases hoch : alookup p.2.chunks c with
    | none =>
      obtain ⟨e, he, hck, hmem⟩ := ih e0
      refine ⟨e, by simpa [applyOne] using he, hck, ?_⟩
      intro ip
      rw [hmem ip]
      constructor
      · rintro (h | ⟨q, hq, hip, hs⟩)
        · exact Or.inl h
        · exact Or.inr ⟨q, List.mem_cons_of_mem _ hq, hip, hs⟩
      · rintro (h | ⟨q, hq, hip, hs⟩)
        · exact Or.inl h
        · rcases List.mem_cons.mp hq with h1 | h1
          · rw [h1] at hs
            rw [hoch] at hs
            exact absurd hs (by simp)
          · exact Or.inr ⟨q, h1, hip, hs⟩
    | some sum =>
      by_cases hck0 : e0.checksum ≠ sum
      · obtain ⟨e, he, hck, hmem⟩ := ih e0
        refine ⟨e, by simpa [applyOne, hck0] using he, hck, ?_⟩
        intro ip
        rw [hmem ip]
        constructor
        · rintro (h | ⟨q, hq, hip, hs⟩)
          · exact Or.inl h
          · exact Or.inr ⟨q, List.mem_cons_of_mem _ hq, hip, hs⟩
        · rintro (h | ⟨q, hq, hip, hs⟩)
          · exact Or.inl h
          · rcases List.mem_cons.mp hq with h1 | h1
            · rw [h1, hoch] at hs
              have : sum = e0.checksum := by injection hs
              exact absurd this.symm hck0
            · exact Or.inr ⟨q, h1, hip, hs⟩
      · push_neg at hck0
        by_cases hip0 : p.1 ∈ e0.peers
        · obtain ⟨e, he, hck, hmem⟩ := ih e0
          refine ⟨e, by simpa [applyOne, hck0, hip0] using he, hck, ?_⟩
          intro ip
          rw [hmem ip]
          constructor
          · rintro (h | ⟨q, hq, hip, hs⟩)
            · exact Or.inl h
            · exact Or.inr ⟨q, List.mem_cons_of_mem _ hq, hip, hs⟩
          · rintro (h | ⟨q, hq, hip, hs⟩)
            · exact Or.inl h
            · rcases List.mem_cons.mp hq with h1 | h1
              · rw [← hip, h1]
                exact Or.inl hip0
              · exact Or.inr ⟨q, h1, hip, hs⟩
        · obtain ⟨e, he, hck, hmem⟩ := ih ⟨e0.checksum, e0.peers ++ [p.1]⟩
          refine ⟨e, by simpa [applyOne, hck0, hip0] using he, hck, ?_⟩
          intro ip
          rw [hmem ip]
          simp only [List.mem_append, List.mem_singleton]
          constructor
          · rintro ((h | h) | ⟨q, hq, hip, hs⟩)
            · exact Or.inl h
            · exact Or.inr ⟨p, List.mem_cons_self _ _, h.symm, by rw [hoch, hck0]⟩
            · exact Or.inr ⟨q, List.mem_cons_of_mem _ hq, hip, hs⟩
          · rintro (h | ⟨q, hq, hip, hs⟩)
            · exact Or.inl (Or.inl h)
            · rcases List.mem_cons.mp hq with h1 | h1
              · rw [h1] at hip
                exact Or.inl (Or.inr hip.symm)
              · exact Or.inr ⟨q, h1, hip, hs⟩

theorem cdAt_none (c : String) (ps : Peers) :
    (cdAt c ps none = none ∧ firstReport ps c = none) ∨
    (∃ s e, firstReport ps c = some s ∧ cdAt c ps none = some e ∧
      e.checksum = s ∧
      ∀ ip, ip ∈ e.peers ↔
        ∃ p ∈ ps, p.1 = ip ∧ alookup p.2.chunks c = some s) := by
  induction ps with
  | nil => exact Or.inl ⟨rfl, rfl⟩
  | cons p tl ih =>
    rw [cdAt_cons]
    cases hoch : alookup p.2.chunks c with
    | none =>
      rcases ih with ⟨h1, h2⟩ | ⟨s, e, hfr, hcd, hck, hmem⟩
      · left
        refine ⟨by simpa [applyOne] using h1, ?_⟩
        simp [firstReport, List.findSome?_cons, hoch]
        simpa [firstReport] using h2
      · right
        refine ⟨s, e, ?_, by simpa [applyOne] using hcd, hck, ?_⟩
        · simp [firstReport, List.findSome?_cons, hoch]
          simpa [firstReport] using hfr
        · intro ip
          rw [hmem ip]
          constructor
          · rintro ⟨q, hq, hip, hs⟩
            exact ⟨q, List.mem_cons_of_mem _ hq, hip, hs⟩
          · rintro ⟨q, hq, hip, hs⟩
            rcases List.mem_cons.mp hq with h1 | h1
            · rw [h1, hoch] at hs
              exact absurd hs (by simp)
            · exact ⟨q, h1, hip, hs⟩
    | some sum =>
      right
      obtain ⟨e, he, hck, hmem⟩ := cdAt_some c tl ⟨sum, [p.1]⟩
      refine ⟨sum, e, ?_, by simpa [applyOne] using he, hck, ?_⟩
      · simp [firstReport, List.findSome?_cons, hoch]
      · intro ip
        rw [hmem ip]
        simp only [List.mem_singleton]
        constructor
        · rintro (h | ⟨q, hq, hip, hs⟩)
          · exact ⟨p, List.mem_cons_self _ _, h.symm, hoch⟩
          · exact ⟨q, List.mem_cons_of_mem _ hq, hip, hs⟩
        · rintro ⟨q, hq, hip, hs⟩
          rcases List.mem_cons.mp hq with h1 | h1
          · rw [h1] at hip
            exact Or.inl hip.symm
          · exact Or.inr ⟨q, h1, hip, hs⟩

/-- C3: in the derived content directory, every peer listed for a chunk
reported exactly the recorded checksum; the recorded checksum is the one
from the first-encountered peer holding that chunk; and a peer whose
reported checksum for the chunk differs is omitted from that chunk's peer
list rather than overwriting the checksum. -/
theorem c3_content_dict_consistency (ps : Peers)
    (hkeys : (ps.map Prod.fst).Nodup)
    (hch : ∀ p ∈ ps, ((p.2.chunks).map Prod.fst).Nodup) :
    ∀ c e, alookup (getContentDict ps) c = some e →
      (∀ ip ∈ e.peers, ∃ pe, alookup ps ip = some pe ∧
        alookup pe.chunks c = some e.checksum) ∧
      firstReport ps c = some e.checksum ∧
      (∀ ip pe s, alookup ps ip = some pe → alookup pe.chunks c = some s →
        s ≠ e.checksum → ip ∉ e.peers) := by
  intro c e hcd
  rw [gcd_lookup ps c hch] at hcd
  rcases cdAt_none c ps with ⟨h1, _⟩ | ⟨s, e', hfr, hcd', hck, hmem⟩
  · rw [h1] at hcd
    exact absurd hcd (by simp)
  · rw [hcd'] at hcd
    have he : e' = e := by injection hcd
    subst he
    have hmain : ∀ ip ∈ e'.peers, ∃ pe, alookup ps ip = some pe ∧
        alookup pe.chunks c = some e'.checksum := by
      intro ip hip
      obtain ⟨q, hq, hqip, hqs⟩ := (hmem ip).mp hip
      refine ⟨q.2, ?_, by rw [hqs, hck]⟩
      rw [← hqip]
      exact mem_alookup_of_nodup ps hkeys q hq
    refine ⟨hmain, by rw [hfr, hck], ?_⟩
    intro ip pe s' hps hpes hne hip
    obtain ⟨pe', hps', hpes'⟩ := hmain ip hip
    rw [hps] at hps'
    have : pe = pe' := by injection hps'
    subst this
    rw [hpes] at hpes'
    have : s' = e'.checksum := by injection hpes'
    exact hne this

theorem goBatches_sizes (peerIp ts : String) (tot : Nat)
    (bs : List (List (String × ChunkMeta))) (cur : Nat) :
    ∀ m ∈ (goBatches peerIp ts tot bs cur).1,
      msgLenOf peerIp ts m ≤ 60000 := by
  induction bs generalizing cur with
  | nil => simp [goBatches]
  | cons b rest ih =>
    by_cases h : 60000 < msgLen peerIp ts b cur tot
    · simp [goBatches, h]
    · simp only [goBatches, if_neg h]
      intro m hm
      rcases List.mem_cons.mp hm with h1 | h1
      · rw [h1]
        simp [msgLenOf]
        omega
      · exact ih (cur + 1) m h1

theorem announceBatches_sizes (peerIp ts : String) (fuel : Nat)
    (items : List (String × ChunkMeta)) (maxB : Nat) :
    ∀ m ∈ (announceBatches peerIp ts fuel items maxB).1,
      msgLenOf peerIp ts m ≤ 60000 := by
  induction fuel generalizing maxB with
  | zero => simp [announceBatches]
  | succ f ih =>
    cases hgo : (goBatches peerIp ts ((items.length + maxB - 1) / maxB)
        (chunkify items maxB) 1).2 with
    | true =>
      simp only [announceBatches, hgo, if_pos]
      exact goBatches_sizes peerIp ts _ _ 1
    | false =>
      simp only [announceBatches, hgo, Bool.false_eq_true, if_neg,
        not_false_eq_true]
      intro m hm
      rcases List.mem_append.mp hm with h1 | h1
      · exact goBatches_sizes peerIp ts _ _ 1 m h1
      · exact ih _ m h1

theorem chunkify_one {α : Type} (l : List α) :
    chunkify l 1 = l.map (fun x => [x]) := by
  induction l with
  | nil => simp [chunkify]
  | cons x xs ih =>
    rw [chunkify]
    simp [ih]

theorem goBatches_all_fit (peerIp ts : String) (tot : Nat)
    (bs : List (List (String × ChunkMeta))) (cur : Nat)
    (hfit : ∀ i (h : i < bs.length),
      msgLen peerIp ts bs[i] (cur + i) tot ≤ 60000) :
    (goBatches peerIp ts tot bs cur).2 = true := by
  induction bs generalizing cur with
  | nil => simp [goBatches]
  | cons b rest ih =>
    have h0 := hfit 0 (by simp)
    simp only [List.getElem_cons_zero, Nat.add_zero] at h0
    have hnot : ¬60000 < msgLen peerIp ts b cur tot := by omega
    simp only [goBatches, if_neg hnot]
    refine ih (cur + 1) ?_
    intro i hi
    have hstep := hfit (i + 1) (by simpa using Nat.succ_lt_succ hi)
    have he : cur + (i + 1) = cur + 1 + i := by omega
    rw [he] at hstep
    simpa using hstep

theorem announceBatches_terminates (peerIp ts : String)
    (items : List (String × ChunkMeta)) (maxB : Nat)
    (hfit : ∀ x ∈ items, ∀ cur, cur ≤ items.length →
      msgLen peerIp ts [x] cur items.length ≤ 60000) :
    ∀ fuel, 1 ≤ maxB → maxB ≤ fuel →
      (announceBatches peerIp ts fuel items maxB).2 = true := by
  induction maxB using Nat.strong_induction_on with
  | _ maxB ih =>
    intro fuel h1 h2
    obtain ⟨f, rfl⟩ : ∃ f, fuel = f + 1 := ⟨fuel - 1, by omega⟩
    cases hgo : (goBatches peerIp ts ((items.length + maxB - 1) / maxB)
        (chunkify items maxB) 1).2 with
    | true => simp [announceBatches, hgo]
    | false =>
      by_cases hb1 : maxB = 1
      · exfalso
        subst hb1
        have htot : (items.length + 1 - 1) / 1 = items.length := by omega
        rw [htot, chunkify_one] at hgo
        have := goBatches_all_fit peerIp ts items.length
          (items.map (fun x => [x])) 1 ?_
        · rw [this] at hgo
          simp at hgo
        · intro i hi
          rw [List.length_map] at hi
          have hmem : items[i] ∈ items := List.getElem_mem hi
          have := hfit items[i] hmem (1 + i) (by omega)
          simpa using this
      · have hb2 : 2 ≤ maxB := by omega
        simp only [announceBatches, hgo, Bool.false_eq_true, if_neg,
          not_false_eq_true]
        have hm : Nat.max 1 (maxB / 2) = maxB / 2 :=
          Nat.max_eq_right (by omega)
        have hlt : Nat.max 1 (maxB / 2) < maxB := by rw [hm]; omega
        refine ih _ hlt f ?_ ?_
        · exact Nat.le_max_left 1 _
        · rw [hm]; omega

/-- C8 (amended): every announcement message the batch splitter actually
emits encodes to at most 60000 bytes, unconditionally; and the recursion
terminates whenever each chunk entry fits in a singleton batch within the
margin (fuel at least the starting batch size suffices, since the batch
size halves, never below 1).  Termination does NOT hold for every finite
chunk map: a single entry whose encoding exceeds the margin recurses
forever at batch size 1 (see the counterexample). -/
theorem c8_batch_split (peerIp ts : String)
    (items : List (String × ChunkMeta)) (maxB fuel : Nat)
    (h1 : 1 ≤ maxB) (h2 : maxB ≤ fuel)
    (hfit : ∀ x ∈ items, ∀ cur, cur ≤ items.length →
      msgLen peerIp ts [x] cur items.length ≤ 60000) :
    (announceBatches peerIp ts fuel items maxB).2 = true ∧
    (∀ (fuel' maxB' : Nat) (items' : List (String × ChunkMeta)),
      ∀ m ∈ (announceBatches peerIp ts fuel' items' maxB').1,
        msgLenOf peerIp ts m ≤ 60000) :=
  ⟨announceBatches_terminates peerIp ts items maxB hfit fuel h1 h2,
    fun fuel' maxB' items' =>
      announceBatches_sizes peerIp ts fuel' items' maxB'⟩

/-- C8 witness: a two-entry chunk map with the default batch size 8; the
singleton-fit hypothesis is discharged by evaluation. -/
theorem c8_witness :
    1 ≤ 8 ∧ (8 : Nat) ≤ 8 ∧
    (∀ x ∈ [("c1", ChunkMeta.mk 5 "ab" "t"), ("c2", ChunkMeta.mk 7 "cd" "t")],
      ∀ cur, cur ≤ ([("c1", ChunkMeta.mk 5 "ab" "t"),
        ("c2", ChunkMeta.mk 7 "cd" "t")] : List (String × ChunkMeta)).length →
        msgLen "p" "t" [x] cur ([("c1", ChunkMeta.mk 5 "ab" "t"),
          ("c2", ChunkMeta.mk 7 "cd" "t")] : List (String × ChunkMeta)).length
          ≤ 60000) ∧
    ((announceBatches "p" "t" 8 [("c1", ChunkMeta.mk 5 "ab" "t"),
        ("c2", ChunkMeta.mk 7 "cd" "t")] 8).2 = true ∧
      (∀ (fuel' maxB' : Nat) (items' : List (String × ChunkMeta)),
        ∀ m ∈ (announceBatches "p" "t" fuel' items' maxB').1,
          msgLenOf "p" "t" m ≤ 60000)) :=
  ⟨by decide, by decide, by decide,
    c8_batch_split "p" "t" [("c1", ChunkMeta.mk 5 "ab" "t"),
      ("c2", ChunkMeta.mk 7 "cd" "t")] 8 8 (by decide) (by decide)
      (by decide)⟩

theorem jsonStrLen_mk (l : List Char) :
    jsonStrLen (String.mk l) = 2 + (l.map escLen).sum := rfl

theorem sum_escLen_replicate (n : Nat) :
    ((List.replicate n 'a').map escLen).sum = n := by
  induction n with
  | zero => simp
  | succ k ih =>
    rw [List.replicate_succ, List.map_cons, List.sum_cons, ih]
    have hesc : escLen 'a' = 1 := by decide
    rw [hesc]
    omega

theorem jsonStrLen_bigName : jsonStrLen bigName = 60002 := by
  show jsonStrLen (String.mk (List.replicate 60000 'a')) = 60002
  rw [jsonStrLen_mk, sum_escLen_replicate]

theorem msgLen_bigName_gt (peerIp ts : String) (m0 : ChunkMeta)
    (cur tot : Nat) :
    60000 < msgLen peerIp ts [(bigName, m0)] cur tot := by
  simp only [msgLen, chunksLen, dictLen, entriesLen, List.map_cons,
    List.map_nil]
  have h := jsonStrLen_bigName
  omega

/-- C8 counterexample: on a chunk map holding one entry whose name is
60000 characters long, the recursive batch split never terminates — the
batch size bottoms out at 1 and `max(1, 1 // 2) = 1` retries the same
oversized singleton forever (in Python, until the recursion limit). -/
theorem c8_counterexample :
    announceDiverges [(bigName, ⟨0, "", ""⟩)] := by
  intro peerIp ts fuel
  induction fuel with
  | zero => intro maxB h1; simp [announceBatches]
  | succ f ih =>
    intro maxB h1
    have hch : chunkify [(bigName, (⟨0, "", ""⟩ : ChunkMeta))] maxB =
        [[(bigName, (⟨0, "", ""⟩ : ChunkMeta))]] := by
      have htake : List.take (maxB.max 1)
          [(bigName, (⟨0, "", ""⟩ : ChunkMeta))] =
          [(bigName, (⟨0, "", ""⟩ : ChunkMeta))] :=
        List.take_of_length_le (by simpa using Nat.le_max_right maxB 1)
      have hdrop : List.drop (maxB.max 1)
          [(bigName, (⟨0, "", ""⟩ : ChunkMeta))] = [] :=
        List.drop_eq_nil_of_le (by simpa using Nat.le_max_right maxB 1)
      rw [chunkify, htake, hdrop]
      simp [chunkify]
    have hbig := msgLen_bigName_gt peerIp ts ⟨0, "", ""⟩ 1
      ((([(bigName, (⟨0, "", ""⟩ : ChunkMeta))]).length + maxB - 1) / maxB)
    simp only [announceBatches, hch, goBatches, if_pos hbig]
    simp
    exact ih _ (Nat.le_max_left 1 _)

/-! ## Download-job completion lemmas -/

theorem runQueue_invariant (H : List Nat → String)
    (net : String → String → Stream) (chunks : List String)
    (ckf : String → String) (prsf : String → List String) :
    ∀ (q : List (String × String × List String)) (st : JobState),
      (∀ item ∈ q, item.1 ∈ chunks ∧ item.2.1 = ckf item.1 ∧
        item.2.2 = prsf item.1) →
      st.1.Nodup → st.1 ⊆ chunks →
      (∀ c ∈ st.1, ∃ p ∈ prsf c,
        (receiveAndVerify H (net p c) (ckf c)).accepted = true) →
      (st.2 = true → ∀ c ∈ chunks, c ∈ st.1) →
      (runQueue H net chunks q st).1.Nodup ∧
      (runQueue H net chunks q st).1 ⊆ chunks ∧
      (∀ c ∈ (runQueue H net chunks q st).1, ∃ p ∈ prsf c,
        (receiveAndVerify H (net p c) (ckf c)).accepted = true) ∧
      ((runQueue H net chunks q st).2 = true →
        ∀ c ∈ chunks, c ∈ (runQueue H net chunks q st).1) := by
  intro q
  induction q with
  | nil =>
    intro st _ h1 h2 h3 h4
    exact ⟨h1, h2, h3, h4⟩
  | cons item rest ih =>
    intro st hq h1 h2 h3 h4
    have hitem := hq item (List.mem_cons_self _ _)
    have hrest := fun i hi => hq i (List.mem_cons_of_mem _ hi)
    have hstep : runQueue H net chunks (item :: rest) st =
        runQueue H net chunks rest
          (processItem H net st.1 item,
            st.2 || decide ((processItem H net st.1 item).length =
              chunks.length)) := rfl
    rw [hstep]
    have hmain : (processItem H net st.1 item).Nodup ∧
        (processItem H net st.1 item) ⊆ chunks ∧
        (∀ c ∈ processItem H net st.1 item, ∃ p ∈ prsf c,
          (receiveAndVerify H (net p c) (ckf c)).accepted = true) ∧
        st.1 ⊆ processItem H net st.1 item := by
      cases hfind : item.2.2.find?
          (fun p => tryDownload H net p item.1 item.2.1) with
      | none =>
        have hseq : processItem H net st.1 item = st.1 := by
          unfold processItem
          rw [hfind]
        rw [hseq]
        exact ⟨h1, h2, h3, fun a ha => ha⟩
      | some p =>
        by_cases hmem : item.1 ∈ st.1
        · have hseq : processItem H net st.1 item = st.1 := by
            unfold processItem
            rw [hfind]
            simp [hmem]
          rw [hseq]
          exact ⟨h1, h2, h3, fun a ha => ha⟩
        · have hseq : processItem H net st.1 item = st.1 ++ [item.1] := by
            unfold processItem
            rw [hfind]
            simp [hmem]
          have hpred := List.find?_some hfind
          have hpmem := List.mem_of_find?_eq_some hfind
          have hver : ∃ pp ∈ prsf item.1,
              (receiveAndVerify H (net pp item.1) (ckf item.1)).accepted
                = true := by
            refine ⟨p, by rw [← hitem.2.2]; exact hpmem, ?_⟩
            have hacc := hpred
            unfold tryDownload at hacc
            rw [← hitem.2.1]
            exact hacc
          rw [hseq]
          refine ⟨?_, ?_, ?_, fun a ha => List.mem_append_left _ ha⟩
          · refine List.Nodup.append h1 (by simp) ?_
            intro a ha hb
            rw [List.mem_singleton] at hb
            subst hb
            exact hmem ha
          · intro a ha
            rcases List.mem_append.mp ha with ha1 | ha1
            · exact h2 ha1
            · rw [List.mem_singleton.mp ha1]
              exact hitem.1
          · intro c hc
            rcases List.mem_append.mp hc with hc1 | hc1
            · exact h3 c hc1
            · rw [List.mem_singleton.mp hc1]
              exact hver
    have hcomp' : (st.2 || decide ((processItem H net st.1 item).length =
        chunks.length)) = true →
        ∀ c ∈ chunks, c ∈ processItem H net st.1 item := by
      intro hc c hcc
      rcases Bool.or_eq_true_iff.mp hc with hc1 | hc1
      · exact hmain.2.2.2 (h4 hc1 c hcc)
      · have hlen := of_decide_eq_true hc1
        have hperm := (List.subperm_of_subset hmain.1
          hmain.2.1).perm_of_length_le (by omega)
        exact hperm.symm.mem_iff.mp hcc
    exact ih _ hrest hmain.1 hmain.2.1 hmain.2.2.1 hcomp'

/-- C2: the completion event is signalled only when the success set equals
the full set of required chunks (so reassembly, which runs only on
completion, never starts from an incomplete job), and a chunk name enters
the success set only after some candidate peer's byte stream passed the
`receive_and_verify` gate (bytes received and checksum verified). -/
theorem c2_completion_gate (H : List Nat → String)
    (net : String → String → Stream) (chunks : List String)
    (ckf : String → String) (prsf : String → List String)
    (queue : List (String × String × List String))
    (hnd : chunks.Nodup)
    (hq : queue = chunks.map (fun c => (c, ckf c, prsf c))) :
    ((runQueue H net chunks queue ([], false)).2 = true →
      ∀ c, c ∈ chunks ↔ c ∈ (runQueue H net chunks queue ([], false)).1) ∧
    (∀ c ∈ (runQueue H net chunks queue ([], false)).1, ∃ p ∈ prsf c,
      (receiveAndVerify H (net p c) (ckf c)).accepted = true) ∧
    ((downloadAndStitch H net chunks queue).2 = true →
      ∀ c, c ∈ chunks ↔ c ∈ (runQueue H net chunks queue ([], false)).1) := by
  have hitems : ∀ item ∈ queue, item.1 ∈ chunks ∧ item.2.1 = ckf item.1 ∧
      item.2.2 = prsf item.1 := by
    intro item hi
    rw [hq] at hi
    obtain ⟨c, hc, hceq⟩ := List.mem_map.mp hi
    rw [← hceq]
    exact ⟨hc, rfl, rfl⟩
  have hmain := runQueue_invariant H net chunks ckf prsf queue ([], false)
    hitems (by simp) (by simp) (by simp) (by simp)
  refine ⟨?_, hmain.2.2.1, ?_⟩
  · intro hc c
    exact ⟨fun h => hmain.2.2.2 hc c h, fun h => hmain.2.1 h⟩
  · intro hst c
    unfold downloadAndStitch at hst
    by_cases hch : chunks = []
    · simp [hch] at hst
    · rw [if_neg hch] at hst
      exact ⟨fun h => hmain.2.2.2 hst c h, fun h => hmain.2.1 h⟩

/-- C2 witness: a one-chunk job over a network oracle that serves a valid
stream; the queue-shape and uniqueness hypotheses are discharged
concretely. -/
theorem c2_witness :
    (["f_1"] : List String).Nodup ∧
    ([("f_1", "ok", ["p1"])] : List (String × String × List String)) =
      (["f_1"] : List String).map (fun c => (c, "ok", ["p1"])) ∧
    (((runQueue (fun l => if l = [65] then "ok" else "bad")
        (fun _ _ => [[49, 10], [65]]) ["f_1"] [("f_1", "ok", ["p1"])]
        ([], false)).2 = true →
      ∀ c, c ∈ (["f_1"] : List String) ↔
        c ∈ (runQueue (fun l => if l = [65] then "ok" else "bad")
          (fun _ _ => [[49, 10], [65]]) ["f_1"] [("f_1", "ok", ["p1"])]
          ([], false)).1) ∧
    (∀ c ∈ (runQueue (fun l => if l = [65] then "ok" else "bad")
        (fun _ _ => [[49, 10], [65]]) ["f_1"] [("f_1", "ok", ["p1"])]
        ([], false)).1, ∃ p ∈ (["p1"] : List String),
      (receiveAndVerify (fun l => if l = [65] then "ok" else "bad")
        [[49, 10], [65]] "ok").accepted = true) ∧
    ((downloadAndStitch (fun l => if l = [65] then "ok" else "bad")
        (fun _ _ => [[49, 10], [65]]) ["f_1"] [("f_1", "ok", ["p1"])]).2
          = true →
      ∀ c, c ∈ (["f_1"] : List String) ↔
        c ∈ (runQueue (fun l => if l = [65] then "ok" else "bad")
          (fun _ _ => [[49, 10], [65]]) ["f_1"] [("f_1", "ok", ["p1"])]
          ([], false)).1)) :=
  ⟨by decide, rfl,
    c2_completion_gate (fun l => if l = [65] then "ok" else "bad")
      (fun _ _ => [[49, 10], [65]]) ["f_1"] (fun _ => "ok")
      (fun _ => ["p1"]) [("f_1", "ok", ["p1"])] (by decide) rfl⟩

/-- C3 witness: the uniqueness hypotheses of
`c3_content_dict_consistency` discharged on a concrete peer table with a
checksum conflict. -/
theorem c3_witness :
    ((psWitness.map Prod.fst).Nodup ∧
      ∀ p ∈ psWitness, ((p.2.chunks).map Prod.fst).Nodup) ∧
    ∀ c e, alookup (getContentDict psWitness) c = some e →
      (∀ ip ∈ e.peers, ∃ pe, alookup psWitness ip = some pe ∧
        alookup pe.chunks c = some e.checksum) ∧
      firstReport psWitness c = some e.checksum ∧
      (∀ ip pe s, alookup psWitness ip = some pe →
        alookup pe.chunks c = some s → s ≠ e.checksum → ip ∉ e.peers) :=
  ⟨⟨by decide, by decide⟩,
    c3_content_dict_consistency psWitness (by decide) (by decide)⟩

theorem optEquiv_refl (o : Option CDEntry) : optEquiv o o := by
  cases o with
  | none => trivial
  | some e => exact ⟨rfl, fun p => Iff.rfl⟩

theorem cdEquiv_of_eq (c1 c2 : List (String × CDEntry)) (h : c1 = c2) :
    cdEquiv c1 c2 := by
  subst h
  intro name
  exact optEquiv_refl _

theorem applyOne_swap (A B : String) (oA oB : Option String)
    (oe : Option CDEntry) (hAB : A ≠ B)
    (hagree : ∀ sA sB, oA = some sA → oB = some sB → sA = sB) :
    optEquiv (applyOne B oB (applyOne A oA oe))
      (applyOne A oA (applyOne B oB oe)) := by
  cases oA with
  | none => exact optEquiv_refl _
  | some sA =>
    cases oB with
    | none => exact optEquiv_refl _
    | some sB =>
      have hs : sA = sB := hagree sA sB rfl rfl
      subst hs
      cases oe with
      | none =>
        have hBA : ¬B = A := fun h => hAB h.symm
        simp [applyOne, hBA, hAB]
        refine ⟨rfl, fun p => ?_⟩
        simp [List.mem_cons]
        tauto
      | some e =>
        by_cases hck : e.checksum ≠ sA
        · simp [applyOne, hck]
          exact ⟨rfl, fun p => Iff.rfl⟩
        · push_neg at hck
          by_cases hA : A ∈ e.peers
          · by_cases hB : B ∈ e.peers
            · simp [applyOne, hck, hA, hB]
              exact ⟨rfl, fun p => Iff.rfl⟩
            · simp [applyOne, hck, hA, hB]
              exact ⟨rfl, fun p => Iff.rfl⟩
          · by_cases hB : B ∈ e.peers
            · simp [applyOne, hck, hA, hB]
              exact ⟨rfl, fun p => Iff.rfl⟩
            · have hABne : ¬A = B := hAB
              have hBAne : ¬B = A := fun h => hAB h.symm
              simp [applyOne, hck, hA, hB, hABne, hBAne]
              refine ⟨rfl, fun p => ?_⟩
              simp [List.mem_append, List.mem_cons]
              tauto

theorem gcd_append_pair (D : Peers) (a b : String × PeerEntry) :
    getContentDict (D ++ [a, b]) =
      stepPeer (stepPeer (getContentDict D) a) b := by
  simp [getContentDict, List.foldl_append]

theorem gcd_swap_append (D : Peers) (A B : String) (eA eB : PeerEntry)
    (hAB : A ≠ B)
    (hnA : (eA.chunks.map Prod.fst).Nodup)
    (hnB : (eB.chunks.map Prod.fst).Nodup)
    (hagree : ∀ c sA sB, alookup eA.chunks c = some sA →
      alookup eB.chunks c = some sB → sA = sB) :
    cdEquiv (getContentDict (D ++ [(A, eA), (B, eB)]))
      (getContentDict (D ++ [(B, eB), (A, eA)])) := by
  intro name
  obtain ⟨tA, chA⟩ := eA
  obtain ⟨tB, chB⟩ := eB
  rw [gcd_append_pair, gcd_append_pair,
    lookup_stepPeer B tB chB _ name hnB,
    lookup_stepPeer A tA chA _ name hnA,
    lookup_stepPeer A tA chA _ name hnA,
    lookup_stepPeer B tB chB _ name hnB]
  exact applyOne_swap A B (alookup chA name) (alookup chB name) _ hAB
    (hagree name)

theorem updatePeer_peers (ps : Peers) (ip : String)
    (chunks : List (String × String)) (now : Nat) :
    (updatePeer ps ip chunks now).1 =
      if chunks = [] ∧ (alookup ps ip).isSome then ps
      else aset ps ip ⟨now, chunks⟩ := by
  unfold updatePeer
  by_cases h : chunks = [] ∧ (alookup ps ip).isSome <;> simp [h]

theorem alookup_updatePeer_ne (ps : Peers) (ip : String)
    (chunks : List (String × String)) (now : Nat) (other : String)
    (h : other ≠ ip) :
    alookup (updatePeer ps ip chunks now).1 other = alookup ps other := by
  rw [updatePeer_peers]
  by_cases hg : chunks = [] ∧ (alookup ps ip).isSome
  · simp [hg]
  · simp [hg, alookup_aset, h]

/-- C4 (amended): announcements from two distinct peers commute up to the
order of each chunk's peer list, provided the two peers agree on the
checksum of every chunk name they both report: applying them to the same
initial Peer Directory in either order yields content directories with
identical chunk names, identical checksums and identical peer sets.  When
the peers disagree on a shared chunk's checksum the directories genuinely
differ (the first-applied peer's checksum wins, see the counterexample). -/
theorem c4_commute_up_to_order (D : Peers) (A B : String)
    (chA chB : List (String × String)) (tA tB : Nat) (hAB : A ≠ B)
    (hnA : (chA.map Prod.fst).Nodup) (hnB : (chB.map Prod.fst).Nodup)
    (hagree : ∀ p ∈ chA, ∀ q ∈ chB, p.1 = q.1 → p.2 = q.2) :
    cdEquiv
      (getContentDict (updatePeer (updatePeer D A chA tA).1 B chB tB).1)
      (getContentDict (updatePeer (updatePeer D B chB tB).1 A chA tA).1) := by
  have hBA : B ≠ A := fun h => hAB h.symm
  have hlookB : alookup (updatePeer D A chA tA).1 B = alookup D B :=
    alookup_updatePeer_ne D A chA tA B hBA
  have hlookA : alookup (updatePeer D B chB tB).1 A = alookup D A :=
    alookup_updatePeer_ne D B chB tB A hAB
  by_cases gA : chA = [] ∧ (alookup D A).isSome
  · -- the A-announcement is skipped in both orders
    have h1 : (updatePeer D A chA tA).1 = D := by
      rw [updatePeer_peers]; simp [gA]
    have h2 : (updatePeer (updatePeer D B chB tB).1 A chA tA).1 =
        (updatePeer D B chB tB).1 := by
      rw [updatePeer_peers]
      simp [gA.1, hlookA, gA.2]
    rw [h1, h2]
    exact cdEquiv_of_eq _ _ rfl
  · by_cases gB : chB = [] ∧ (alookup D B).isSome
    · -- the B-announcement is skipped in both orders
      have h1 : (updatePeer D B chB tB).1 = D := by
        rw [updatePeer_peers]; simp [gB]
      have h2 : (updatePeer (updatePeer D A chA tA).1 B chB tB).1 =
          (updatePeer D A chA tA).1 := by
        rw [updatePeer_peers]
        simp [gB.1, hlookB, gB.2]
      rw [h1, h2]
      exact cdEquiv_of_eq _ _ rfl
    · -- both updates take effect
      have hA1 : (updatePeer D A chA tA).1 = aset D A ⟨tA, chA⟩ := by
        rw [updatePeer_peers]; simp [gA]
      have hB1 : (updatePeer D B chB tB).1 = aset D B ⟨tB, chB⟩ := by
        rw [updatePeer_peers]; simp [gB]
      have hgB' : ¬(chB = [] ∧
          (alookup (updatePeer D A chA tA).1 B).isSome) := by
        rw [hlookB]; exact gB
      have hgA' : ¬(chA = [] ∧
          (alookup (updatePeer D B chB tB).1 A).isSome) := by
        rw [hlookA]; exact gA
      have hgB2 : ¬(chB = [] ∧ (alookup (aset D A ⟨tA, chA⟩) B).isSome) := by
        rw [← hA1]; exact hgB'
      have hgA2 : ¬(chA = [] ∧ (alookup (aset D B ⟨tB, chB⟩) A).isSome) := by
        rw [← hB1]; exact hgA'
      have hP1 : (updatePeer (updatePeer D A chA tA).1 B chB tB).1 =
          aset (aset D A ⟨tA, chA⟩) B ⟨tB, chB⟩ := by
        rw [updatePeer_peers, hA1]
        simp [hgB2]
      have hP2 : (updatePeer (updatePeer D B chB tB).1 A chA tA).1 =
          aset (aset D B ⟨tB, chB⟩) A ⟨tA, chA⟩ := by
        rw [updatePeer_peers, hB1]
        simp [hgA2]
      rw [hP1, hP2]
      by_cases hpA : (alookup D A).isSome
      · exact cdEquiv_of_eq _ _ (congrArg getContentDict (aset_comm D A B _ _ hAB hpA))
      · by_cases hpB : (alookup D B).isSome
        · exact cdEquiv_of_eq _ _ (congrArg getContentDict (aset_comm D B A _ _ hBA hpB).symm)
        · have hnoneA : alookup D A = none := by
            cases h : alookup D A with
            | none => rfl
            | some w => rw [h] at hpA; simp at hpA
          have hnoneB : alookup D B = none := by
            cases h : alookup D B with
            | none => rfl
            | some w => rw [h] at hpB; simp at hpB
          have e1 : aset (aset D A ⟨tA, chA⟩) B ⟨tB, chB⟩ =
              D ++ [(A, ⟨tA, chA⟩), (B, ⟨tB, chB⟩)] := by
            rw [aset_of_absent D A _ hnoneA, aset_of_absent, List.append_assoc]
            rfl
            rw [alookup_append, hnoneB]
            simp [alookup, hBA]
          have e2 : aset (aset D B ⟨tB, chB⟩) A ⟨tA, chA⟩ =
              D ++ [(B, ⟨tB, chB⟩), (A, ⟨tA, chA⟩)] := by
            rw [aset_of_absent D B _ hnoneB, aset_of_absent, List.append_assoc]
            rfl
            rw [alookup_append, hnoneA]
            simp [alookup, hAB]
          rw [e1, e2]
          refine gcd_swap_append D A B ⟨tA, chA⟩ ⟨tB, chB⟩ hAB hnA hnB ?_
          intro c sA sB hsA hsB
          exact hagree (c, sA) (alookup_some_mem _ _ _ hsA)
            (c, sB) (alookup_some_mem _ _ _ hsB) rfl

/-- C4 counterexample: with two peers reporting different checksums for
the same chunk, the two application orders yield different content
directories — the first-applied peer's checksum wins. -/
theorem c4_counterexample :
    getContentDict (updatePeer (updatePeer [] "1.1.1.1" [("c", "x")] 1).1
        "2.2.2.2" [("c", "y")] 2).1 ≠
      getContentDict (updatePeer (updatePeer [] "2.2.2.2" [("c", "y")] 2).1
        "1.1.1.1" [("c", "x")] 1).1 := by decide

/-- C4 witness: two distinct peers agreeing on their shared chunk name,
applied in both orders to an initial directory that already knows a third
peer; the hypotheses of `c4_commute_up_to_order` are discharged
concretely. -/
theorem c4_witness :
    ("1.1.1.1" : String) ≠ "2.2.2.2" ∧
    (([("c", "x")] : List (String × String)).map Prod.fst).Nodup ∧
    (([("c", "x"), ("d", "z")] : List (String × String)).map Prod.fst).Nodup ∧
    (∀ p ∈ ([("c", "x")] : List (String × String)),
      ∀ q ∈ ([("c", "x"), ("d", "z")] : List (String × String)),
        p.1 = q.1 → p.2 = q.2) ∧
    cdEquiv
      (getContentDict (updatePeer (updatePeer psWitness "1.1.1.1"
        [("c", "x")] 8).1 "2.2.2.2" [("c", "x"), ("d", "z")] 9).1)
      (getContentDict (updatePeer (updatePeer psWitness "2.2.2.2"
        [("c", "x"), ("d", "z")] 9).1 "1.1.1.1" [("c", "x")] 8).1) :=
  ⟨by decide, by decide, by decide, by decide,
    c4_commute_up_to_order psWitness "1.1.1.1" "2.2.2.2" [("c", "x")]
      [("c", "x"), ("d", "z")] 8 9 (by decide) (by decide) (by decide)
      (by decide)⟩

/-- C7 witness: a store holding f_1, f_11, f_2 and an unrelated g_1; the
parse hypothesis is discharged concretely, so the theorem yields the
numeric stitching order (f_2 before f_11). -/
theorem c7_witness :
    ((matchingChunks [("f_1.txt", [1]), ("f_11.txt", [11]), ("f_2.txt", [2]),
        ("g_1.txt", [9])] "f").all (fun n => (ordinalOf n).isSome) = true) ∧
    (∃ order out rest,
      stitchFile [("f_1.txt", [1]), ("f_11.txt", [11]), ("f_2.txt", [2]),
        ("g_1.txt", [9])] "f" = some (order, out, rest) ∧
      order.Perm (matchingChunks [("f_1.txt", [1]), ("f_11.txt", [11]),
        ("f_2.txt", [2]), ("g_1.txt", [9])] "f") ∧
      order.Pairwise
        (fun a b => (ordinalOf a).getD 0 ≤ (ordinalOf b).getD 0) ∧
      out = (order.map (fun n => (alookup [("f_1.txt", [1]),
        ("f_11.txt", [11]), ("f_2.txt", [2]), ("g_1.txt", [9])] n).getD [])).flatten ∧
      (∀ n ∈ matchingChunks [("f_1.txt", [1]), ("f_11.txt", [11]),
        ("f_2.txt", [2]), ("g_1.txt", [9])] "f", alookup rest n = none) ∧
      (∀ f ∈ [("f_1.txt", [1]), ("f_11.txt", [11]), ("f_2.txt", [2]),
        ("g_1.txt", [9])], f.1 ∉ matchingChunks [("f_1.txt", [1]),
        ("f_11.txt", [11]), ("f_2.txt", [2]), ("g_1.txt", [9])] "f" →
        f ∈ rest)) :=
  ⟨by decide,
    c7_stitch_numeric_order [("f_1.txt", [1]), ("f_11.txt", [11]),
      ("f_2.txt", [2]), ("g_1.txt", [9])] "f" (by decide)⟩

end P2P
